import Mathlib

/-!
# OBJ viewer: the codec of `src/main.cpp`

A shallow embedding of `loadObj`, `saveObj` and `displayMesh` of `src/main.cpp`
together with the data model (`Vertex`, `Face`, `Mesh`), and theorems about them.

Modelling decisions.

* Text is a list of characters; a file is `Option Text`, `none` standing for a path
  that cannot be opened (`std::ifstream` then fails every `std::getline`).
* `int` is `Int` kept inside the 32-bit range: extraction rejects literals outside
  the range (as `operator>>` does), and `index - 1`, `index + 1` wrap modulo `2^32`
  (`wrap32`); in C++ the wrapping cases are signed overflow.
* `float` and its two stream conversions belong to the C++ library, not to the
  program. They are a parameter, `FloatConv F`: what `<<` writes for a value and what
  `>>` makes of the characters in front of it. Every general theorem holds for all
  such conversions. `wholeConv` is one instance, used to evaluate concrete examples.
* `Vertex vertex;` is declared in the loop body without an initialiser, and an
  extraction that does not take place leaves its coordinate alone. The storage of
  `vertex` is the same in every iteration and no other statement writes to it, so a
  coordinate that is not read keeps what the previous `v` line left there. The state
  of the loop therefore carries the contents of `vertex`; what it holds before the
  first `v` line is a parameter of `loadObj` (`garbage`), and every general theorem
  holds for all its values.
-/

namespace ObjViewer

/-! ## Data model -/

/-- Text of a file, of a line, of a name: a sequence of characters. -/
abbrev Text := List Char

/-- Source `struct Vertex`: three coordinates of the float type `F`. -/
structure Vertex (F : Type) where
  x : F
  y : F
  z : F
deriving DecidableEq

/-- Source `struct Face`: the indices of its vertices. -/
structure Face where
  indices : List Int
deriving DecidableEq

/-- Source `struct Mesh`: name, vertices and faces. -/
structure Mesh (F : Type) where
  name : Text
  vertices : List (Vertex F)
  faces : List Face
deriving DecidableEq

/-- The float conversions of the C++ stream library, over the float type `F`. -/
structure FloatConv (F : Type) where
  /-- Characters that `outFile << value` writes. -/
  write : F → Text
  /-- Outcome of the numeric extraction `iss >> value` on a stream that is good and
  whose next character exists and is not white space: the value stored, whether the
  extraction succeeded, and the characters that remain. -/
  read : Text → F × Bool × Text

/-! ## Characters, words and integers of a stream -/

/-- The white space of `std::isspace` in the C locale: blank, `\t`, `\n`, `\v`,
`\f`, `\r`. -/
def isSpace (c : Char) : Bool :=
  c == ' ' || c == '\t' || c == '\n' || c == '\x0b' || c == '\x0c' || c == '\r'

/-- Negation of `isSpace`. -/
def notSpace (c : Char) : Bool := !isSpace c

/-- The stream sentry: white space at the front is skipped. -/
def skipWs (s : Text) : Text := s.dropWhile isSpace

/-- Extraction `iss >> str` into an empty `std::string`: the word read and the
characters that remain. The word is empty exactly when the extraction fails, and the
string then keeps its empty value. -/
def readWord (s : Text) : Text × Text :=
  ((skipWs s).takeWhile notSpace, (skipWs s).dropWhile notSpace)

/-- Decimal digit test. -/
def isDigit (c : Char) : Bool := 48 ≤ c.toNat && c.toNat ≤ 57

/-- Value of a decimal digit. -/
def digitVal (c : Char) : Nat := c.toNat - 48

/-- Value of a run of decimal digits. -/
def natOfDigits (ds : Text) : Nat := ds.foldl (fun acc c => 10 * acc + digitVal c) 0

/-- Smallest `int`. -/
def intMin : Int := -2147483648

/-- Largest `int`. -/
def intMax : Int := 2147483647

/-- Arithmetic of `int`: the representative of `i` modulo `2^32` in the `int` range. -/
def wrap32 (i : Int) : Int := (i + 2147483648) % 4294967296 - 2147483648

/-- An optional sign in front of a number: whether it is `-`, and the rest. -/
def readSign (s : Text) : Bool × Text :=
  match s with
  | [] => (false, [])
  | c :: t => if c = '-' then (true, t) else if c = '+' then (false, t) else (false, c :: t)

/-- The integer a sign and a run of digits denote. -/
def signedVal (neg : Bool) (ds : Text) : Int :=
  if neg then -(natOfDigits ds : Int) else (natOfDigits ds : Int)

/-- Extraction `iss >> index` into an `int`, as far as the loop `while (iss >> index)`
observes it: `some (value, rest)` when it succeeds, `none` when it fails (end of the
stream, no digit, or a value outside the range of `int`). -/
def readInt (s : Text) : Option (Int × Text) :=
  let sg := readSign (skipWs s)
  let ds := sg.2.takeWhile isDigit
  if ds.isEmpty then none
  else if intMin ≤ signedVal sg.1 ds ∧ signedVal sg.1 ds ≤ intMax then
    some (signedVal sg.1 ds, sg.2.dropWhile isDigit)
  else none

/-- The loop `while (iss >> index) face.indices.push_back(index - 1)`, run for at
most `fuel` successful extractions. -/
def readIndicesFuel : Nat → Text → List Int
  | 0, _ => []
  | fuel + 1, s =>
    match readInt s with
    | none => []
    | some (index, rest) => wrap32 (index - 1) :: readIndicesFuel fuel rest

/-- The loop `while (iss >> index) face.indices.push_back(index - 1)`. Every
successful extraction consumes a character, so the length of the stream is enough
fuel (`readIndices_eq`). -/
def readIndices (s : Text) : List Int := readIndicesFuel s.length s

/-- State of the `std::istringstream` between two float extractions. -/
structure IStream where
  buf : Text
  failed : Bool

/-- Extraction `iss >> value` into a `float` that holds `old`: a failed stream and a
stream with nothing but white space left leave the value alone, otherwise the
library conversion decides. -/
def readFloat {F : Type} (fc : FloatConv F) (old : F) (st : IStream) : F × IStream :=
  if st.failed then (old, st)
  else if (skipWs st.buf).isEmpty then (old, ⟨[], true⟩)
  else ((fc.read (skipWs st.buf)).1,
        ⟨(fc.read (skipWs st.buf)).2.2, !(fc.read (skipWs st.buf)).2.1⟩)

/-- The statements `Vertex vertex; iss >> vertex.x >> vertex.y >> vertex.z;`, where
`old` is what the storage of `vertex` holds when it is declared: the contents of
`vertex` after the three extractions. -/
def readVertex {F : Type} (fc : FloatConv F) (old : Vertex F) (s : Text) : Vertex F :=
  let rx := readFloat fc old.x ⟨s, false⟩
  let ry := readFloat fc old.y rx.2
  let rz := readFloat fc old.z ry.2
  ⟨rx.1, ry.1, rz.1⟩

/-! ## `loadObj` -/

/-- The loop `while (std::getline(file, line))` after `cur` has been read of the
current line: the lines it yields. A last line without `\n` is yielded when it is
not empty. -/
def getlinesFrom : Text → Text → List Text
  | cur, [] => if cur.isEmpty then [] else [cur]
  | cur, c :: cs => if c = '\n' then cur :: getlinesFrom [] cs else getlinesFrom (cur ++ [c]) cs

/-- The lines `std::getline` yields for a file; none when it cannot be opened. -/
def getlines (file : Option Text) : List Text :=
  match file with
  | none => []
  | some text => getlinesFrom [] text

/-- The variables `meshes` and `currentMesh` of `loadObj`, and the contents of the
storage of the local `vertex`. -/
structure State (F : Type) where
  meshes : List (Mesh F)
  currentMesh : Mesh F
  vertex : Vertex F
deriving DecidableEq

/-- The test `!currentMesh.vertices.empty() && !currentMesh.faces.empty()`. -/
def hasGeometry {F : Type} (m : Mesh F) : Bool := !m.vertices.isEmpty && !m.faces.isEmpty

/-- The statement `if (...) meshes.push_back(currentMesh);`, giving the new `meshes`. -/
def pushIfGeometry {F : Type} (st : State F) : List (Mesh F) :=
  if hasGeometry st.currentMesh then st.meshes ++ [st.currentMesh] else st.meshes

/-- One iteration of the loop of `loadObj`, on one line. -/
def processLine {F : Type} (fc : FloatConv F) (st : State F) (line : Text) : State F :=
  let token := (readWord line).1
  let iss := (readWord line).2
  if token = ['v'] then
    ⟨st.meshes,
      ⟨st.currentMesh.name, st.currentMesh.vertices ++ [readVertex fc st.vertex iss],
        st.currentMesh.faces⟩,
      readVertex fc st.vertex iss⟩
  else if token = ['f'] then
    ⟨st.meshes,
      ⟨st.currentMesh.name, st.currentMesh.vertices,
        st.currentMesh.faces ++ [⟨readIndices iss⟩]⟩,
      st.vertex⟩
  else if token = ['g'] then
    ⟨pushIfGeometry st, ⟨(readWord iss).1, [], []⟩, st.vertex⟩
  else st

/-- The state of `loadObj` before the first line; `garbage` is what the storage of
`vertex` holds then. -/
def initState {F : Type} (garbage : Vertex F) : State F :=
  ⟨[], ⟨"Default".toList, [], []⟩, garbage⟩

/-- The loop of `loadObj` over a sequence of lines. -/
def processLines {F : Type} (fc : FloatConv F) (st : State F) (lines : List Text) : State F :=
  lines.foldl (processLine fc) st

/-- Source `loadObj`, on the contents of the file at `filePath`; `garbage` is what
the storage of `vertex` holds before the first `v` line. -/
def loadObj {F : Type} (fc : FloatConv F) (garbage : Vertex F) (file : Option Text) :
    List (Mesh F) :=
  pushIfGeometry (processLines fc (initState garbage) (getlines file))

/-! ## `saveObj` and `displayMesh` -/

/-- Decimal digit of a number below ten. -/
def digitChar (d : Nat) : Char := Char.ofNat (48 + d)

/-- Decimal digits of a natural number, at most `fuel + 1` of them. -/
def showNatFuel : Nat → Nat → Text
  | 0, n => [digitChar (n % 10)]
  | fuel + 1, n => if n < 10 then [digitChar n] else showNatFuel fuel (n / 10) ++ [digitChar (n % 10)]

/-- Decimal digits of a natural number. -/
def showNat (n : Nat) : Text := showNatFuel n n

/-- Characters that `outFile << value` writes for an `int`. -/
def showInt (i : Int) : Text :=
  if i < 0 then '-' :: showNat i.natAbs else showNat i.natAbs

/-- The line `saveObj` writes for a vertex. -/
def vertexLine {F : Type} (fc : FloatConv F) (v : Vertex F) : Text :=
  ['v', ' '] ++ fc.write v.x ++ [' '] ++ fc.write v.y ++ [' '] ++ fc.write v.z ++ ['\n']

/-- The characters `saveObj` writes for one index: `index + 1` and a blank. -/
def indexText (index : Int) : Text := showInt (wrap32 (index + 1)) ++ [' ']

/-- The line `saveObj` writes for a face. -/
def faceLine (f : Face) : Text :=
  ['f', ' '] ++ (f.indices.map indexText).flatten ++ ['\n']

/-- Source `saveObj`: the characters written to the file at `filePath`. -/
def saveObj {F : Type} (fc : FloatConv F) (mesh : Mesh F) : Text :=
  ['g', ' '] ++ mesh.name ++ ['\n'] ++ (mesh.vertices.map (vertexLine fc)).flatten
    ++ (mesh.faces.map faceLine).flatten

/-- The access `mesh.vertices[index]`: `none` when the index is out of range. -/
def vertexAt {F : Type} (vertices : List (Vertex F)) (index : Int) : Option (Vertex F) :=
  if 0 ≤ index then vertices[index.toNat]? else none

/-- Source `displayMesh`: the vertex looked up for every index of every face, in
the order of the calls of `glVertex3f`. -/
def displayMesh {F : Type} (mesh : Mesh F) : List (Option (Vertex F)) :=
  (mesh.faces.map (fun face => face.indices.map (vertexAt mesh.vertices))).flatten

/-! ## An instance of the float conversions -/

/-- Float conversions restricted to whole numbers, for evaluating examples: a float
that holds a whole number of fewer than seven digits is written by the stream as its
decimal digits, and digits are read back as that number. Fractions and exponents are
outside this instance. -/
def wholeConv : FloatConv Int where
  write := showInt
  read := fun s =>
    let sg := readSign s
    let ds := sg.2.takeWhile isDigit
    if ds.isEmpty then (0, false, sg.2.dropWhile isDigit)
    else (signedVal sg.1 ds, true, sg.2.dropWhile isDigit)

/-! ## Vocabulary of the specification -/

/-- Record type of a line: its first whitespace-delimited token (empty when the
line has none). -/
def recordType (line : Text) : Text := (readWord line).1

/-- Remainder of a line after its record type. -/
def remainder (line : Text) : Text := (readWord line).2

/-- A `v` line. -/
def isV (line : Text) : Bool := decide (recordType line = ['v'])

/-- An `f` line. -/
def isF (line : Text) : Bool := decide (recordType line = ['f'])

/-- A `g` line. -/
def isG (line : Text) : Bool := decide (recordType line = ['g'])

/-- A line that is not a `g` line. -/
def notG (line : Text) : Bool := !isG line

/-- The vertex of a `v` line: the contents of `vertex` after the line, when `slot`
is what its storage held before. -/
def vertexOfLine {F : Type} (fc : FloatConv F) (slot : Vertex F) (line : Text) : Vertex F :=
  readVertex fc slot (remainder line)

/-- The contents of the storage of `vertex` after a line: a `v` line leaves its
vertex there, any other line leaves the storage alone. -/
def vertexAfter {F : Type} (fc : FloatConv F) (slot : Vertex F) (line : Text) : Vertex F :=
  if isV line then vertexOfLine fc slot line else slot

/-- The face of an `f` line. -/
def faceOfLine (line : Text) : Face := ⟨readIndices (remainder line)⟩

/-- The name a `g` line gives its group: the first whitespace-delimited token after
the `g`, empty when there is none. -/
def groupName (line : Text) : Text := (readWord (remainder line)).1

/-- The vertices of the `v` lines of a sequence of lines, in order, when `slot` is
what the storage of `vertex` holds before the first of the lines. -/
def verticesOf {F : Type} (fc : FloatConv F) : Vertex F → List Text → List (Vertex F)
  | _, [] => []
  | slot, l :: ls =>
    if isV l then vertexOfLine fc slot l :: verticesOf fc (vertexOfLine fc slot l) ls
    else verticesOf fc slot ls

/-- The faces of the `f` lines of a sequence of lines, in order. -/
def facesOf (lines : List Text) : List Face := (lines.filter isF).map faceOfLine

/-- The lines before the first `g` line. -/
def headGroup (lines : List Text) : List Text := lines.takeWhile notG

/-- The groups that `g` lines open: each `g` line with the lines that follow it up
to the next `g` line. -/
def laterGroups : List Text → List (Text × List Text)
  | [] => []
  | l :: ls => if isG l then (l, ls.takeWhile notG) :: laterGroups ls else laterGroups ls

/-- The line groups of a text: the head group and the later ones. -/
def groupsOf (lines : List Text) : List (List Text) :=
  headGroup lines :: (laterGroups lines).map (fun g => g.2)

/-- The mesh of a group: its name, its `v` lines as vertices and its `f` lines as
faces, in file order; `slot` is what the storage of `vertex` holds where the group
starts. -/
def meshOfGroup {F : Type} (fc : FloatConv F) (slot : Vertex F) (name : Text)
    (lines : List Text) : Mesh F :=
  ⟨name, verticesOf fc slot lines, facesOf lines⟩

/-- The meshes of the groups that `g` lines open, in file order: for each `g` line
the mesh of the lines that follow it up to the next `g` line, named by the `g` line. -/
def laterMeshes {F : Type} (fc : FloatConv F) : Vertex F → List Text → List (Mesh F)
  | _, [] => []
  | slot, l :: ls =>
    if isG l then meshOfGroup fc slot (groupName l) (ls.takeWhile notG) :: laterMeshes fc slot ls
    else laterMeshes fc (vertexAfter fc slot l) ls

/-- A mesh with the vertices and faces of more lines appended. -/
def addLines {F : Type} (fc : FloatConv F) (slot : Vertex F) (m : Mesh F)
    (lines : List Text) : Mesh F :=
  ⟨m.name, m.vertices ++ verticesOf fc slot lines, m.faces ++ facesOf lines⟩

/-- At least one vertex and at least one face. -/
def nonEmptyMesh {F : Type} (m : Mesh F) : Bool :=
  decide (1 ≤ m.vertices.length) && decide (1 ≤ m.faces.length)

/-- Group splitting as the specification words it: cut the lines at each `g` line
(the lines before the first `g` form the group `Default`), turn every group into a
mesh, keep the groups with a vertex and a face. -/
def loadObjBySplitting {F : Type} (fc : FloatConv F) (garbage : Vertex F)
    (file : Option Text) : List (Mesh F) :=
  ((meshOfGroup fc garbage "Default".toList (headGroup (getlines file)))
    :: laterMeshes fc garbage (getlines file)).filter nonEmptyMesh

/-- The whitespace-delimited fields of a text. -/
def fields : Text → List Text
  | [] => []
  | c :: cs =>
    if isSpace c then fields cs
    else
      match cs with
      | [] => [[c]]
      | d :: _ =>
        if isSpace d then [c] :: fields cs
        else
          match fields cs with
          | [] => [[c]]
          | w :: ws => (c :: w) :: ws

/-- The integer a field writes in decimal, with an optional sign; `none` when the
field is not a decimal integer. -/
def intOfField (t : Text) : Option Int :=
  if (readSign t).2.isEmpty || !(readSign t).2.all isDigit then none
  else some (signedVal (readSign t).1 (readSign t).2)

/-- The line of a vertex without its end of line: `v x y z`. -/
def vertexText {F : Type} (fc : FloatConv F) (v : Vertex F) : Text :=
  ['v', ' '] ++ fc.write v.x ++ [' '] ++ fc.write v.y ++ [' '] ++ fc.write v.z

/-- The line of a face without its end of line: `f`, a blank, then every index plus
one followed by a blank. -/
def faceText (f : Face) : Text :=
  ['f', ' '] ++ (f.indices.map (fun i => showInt (wrap32 (i + 1)) ++ [' '])).flatten

/-- Lines of the text of a mesh: the header, one line per vertex in stored order,
then one line per face in stored order. -/
def objLines {F : Type} (fc : FloatConv F) (mesh : Mesh F) : List Text :=
  (['g', ' '] ++ mesh.name) :: (mesh.vertices.map (vertexText fc) ++ mesh.faces.map faceText)

/-- Successive extractions of `int`s: from the stream `s` the values `vs` are read one
after the other, and `tail` is the stream that remains. -/
inductive ReadsInts : Text → List Int → Text → Prop
  | done (s : Text) : ReadsInts s [] s
  | step {s r tail : Text} {v : Int} {vs : List Int} :
      readInt s = some (v, r) → ReadsInts r vs tail → ReadsInts s (v :: vs) tail

/-- A float that the stream writes as a non-empty text without white space and reads
back from that text, at the end of a line and in front of a blank. -/
def ReadsBack {F : Type} (fc : FloatConv F) (c : F) : Prop :=
  fc.write c ≠ [] ∧ (∀ ch ∈ fc.write c, isSpace ch = false) ∧
  fc.read (fc.write c) = (c, true, []) ∧
  ∀ rest, fc.read (fc.write c ++ ' ' :: rest) = (c, true, ' ' :: rest)

/-! ## Lemmas -/

theorem isDigit_of_space {c : Char} (h : isSpace c = true) : isDigit c = false := by
  simp only [isSpace, Bool.or_eq_true, beq_iff_eq] at h
  rcases h with ((((h | h) | h) | h) | h) | h <;> subst h <;> decide

theorem skipWs_append_readWord (s : Text) : (readWord s).1 ++ (readWord s).2 = skipWs s := by
  simp [readWord, List.takeWhile_append_dropWhile]

/-- What is left after a word is empty or starts with white space. -/
theorem readWord_snd_head (s : Text) :
    (readWord s).2 = [] ∨ ∃ c t, (readWord s).2 = c :: t ∧ isSpace c = true := by
  by_cases h : (readWord s).2 = []
  · exact Or.inl h
  · right
    have := List.head_dropWhile_not notSpace (skipWs s) h
    obtain ⟨c, t, hct⟩ := List.exists_cons_of_ne_nil h
    refine ⟨c, t, hct, ?_⟩
    simp only [readWord] at hct
    simp only [hct, List.head_cons, notSpace, Bool.not_eq_false'] at this
    simpa using this

theorem skipWs_head (s : Text) :
    skipWs s = [] ∨ ∃ c t, skipWs s = c :: t ∧ isSpace c = false := by
  by_cases h : skipWs s = []
  · exact Or.inl h
  · right
    have := List.head_dropWhile_not isSpace s h
    obtain ⟨c, t, hct⟩ := List.exists_cons_of_ne_nil h
    refine ⟨c, t, hct, ?_⟩
    simp only [skipWs] at hct
    simpa [hct] using this

theorem skipWs_of_head {c : Char} {t : Text} (h : isSpace c = false) : skipWs (c :: t) = c :: t := by
  simp [skipWs, List.dropWhile_cons, h]

theorem skipWs_cons_space {c : Char} {t : Text} (h : isSpace c = true) : skipWs (c :: t) = skipWs t := by
  simp [skipWs, List.dropWhile_cons, h]

theorem skipWs_idem (s : Text) : skipWs (skipWs s) = skipWs s := by
  rcases skipWs_head s with h | ⟨c, t, h, hc⟩
  · rw [h]; rfl
  · rw [h]; exact skipWs_of_head hc

theorem readWord_skipWs (s : Text) : readWord (skipWs s) = readWord s := by
  simp [readWord, skipWs_idem]

/-- A word in front of the end of the text or of white space is read whole. -/
theorem readWord_word (w rest : Text) (hw : ∀ c ∈ w, isSpace c = false)
    (hrest : rest = [] ∨ ∃ c t, rest = c :: t ∧ isSpace c = true) (hne : w ≠ []) :
    readWord (w ++ rest) = (w, rest) := by
  obtain ⟨a, w', rfl⟩ := List.exists_cons_of_ne_nil hne
  have ha : isSpace a = false := hw a (by simp)
  have hs : skipWs (a :: w' ++ rest) = a :: w' ++ rest := skipWs_of_head ha
  have hall : ∀ c ∈ a :: w', notSpace c = true := by
    intro c hc; simp [notSpace, hw c hc]
  have htake : List.takeWhile notSpace (a :: w' ++ rest) = a :: w' := by
    rw [List.takeWhile_append]
    have : List.takeWhile notSpace (a :: w') = a :: w' := List.takeWhile_eq_self_iff.mpr hall
    rw [this]
    rcases hrest with rfl | ⟨c, t, rfl, hc⟩
    · simp
    · simp [List.takeWhile_cons, notSpace, hc]
  have hdrop : List.dropWhile notSpace (a :: w' ++ rest) = rest := by
    rw [List.dropWhile_append]
    have : List.dropWhile notSpace (a :: w') = [] := List.dropWhile_eq_nil_iff.mpr hall
    rw [this]
    rcases hrest with rfl | ⟨c, t, rfl, hc⟩
    · simp
    · simp [List.dropWhile_cons, notSpace, hc]
  simp only [readWord, hs, htake, hdrop]


/-! ### Integers of a stream -/

theorem readSign_length (s : Text) : (readSign s).2.length ≤ s.length := by
  cases s with
  | nil => simp [readSign]
  | cons c t =>
    simp only [readSign]
    split_ifs <;> simp

theorem skipWs_length (s : Text) : (skipWs s).length ≤ s.length := by
  have h := List.takeWhile_append_dropWhile isSpace s
  have h2 := congrArg List.length h
  simp only [List.length_append] at h2
  simp only [skipWs]
  omega

/-- A successful extraction of an `int` consumes at least one character. -/
theorem readInt_length {s r : Text} {v : Int} (h : readInt s = some (v, r)) :
    r.length < s.length := by
  simp only [readInt] at h
  split_ifs at h with h1 h2
  simp only [Option.some.injEq, Prod.mk.injEq] at h
  obtain ⟨-, rfl⟩ := h
  have h3 := congrArg List.length
    (List.takeWhile_append_dropWhile isDigit (readSign (skipWs s)).2)
  simp only [List.length_append] at h3
  have h4 := readSign_length (skipWs s)
  have h5 := skipWs_length s
  have h6 : 0 < (List.takeWhile isDigit (readSign (skipWs s)).2).length := by
    cases hd : List.takeWhile isDigit (readSign (skipWs s)).2 with
    | nil => simp [hd] at h1
    | cons a b => simp
  omega

theorem readInt_range {s r : Text} {v : Int} (h : readInt s = some (v, r)) :
    intMin ≤ v ∧ v ≤ intMax := by
  simp only [readInt] at h
  split_ifs at h with h1 h2
  simp only [Option.some.injEq, Prod.mk.injEq] at h
  obtain ⟨rfl, -⟩ := h
  exact h2

theorem readInt_nil : readInt [] = none := by decide

theorem readIndicesFuel_enough : ∀ (n m : Nat) (s : Text), s.length ≤ n → s.length ≤ m →
    readIndicesFuel n s = readIndicesFuel m s := by
  intro n
  induction n with
  | zero =>
    intro m s hn _
    have hs : s = [] := List.length_eq_zero.mp (Nat.le_zero.mp hn)
    subst hs
    cases m with
    | zero => rfl
    | succ m => simp [readIndicesFuel, readInt_nil]
  | succ n ih =>
    intro m s hn hm
    cases m with
    | zero =>
      have hs : s = [] := List.length_eq_zero.mp (Nat.le_zero.mp hm)
      subst hs
      simp [readIndicesFuel, readInt_nil]
    | succ m =>
      simp only [readIndicesFuel]
      cases h : readInt s with
      | none => rfl
      | some p =>
        obtain ⟨v, r⟩ := p
        have hl := readInt_length h
        simp only
        rw [ih m r (by omega) (by omega)]

/-- The loop that reads the indices of a face, one extraction at a time: the fuel of
`readIndices` never runs out. -/
theorem readIndices_eq (s : Text) :
    readIndices s =
      match readInt s with
      | none => []
      | some (index, rest) => wrap32 (index - 1) :: readIndices rest := by
  cases h : readInt s with
  | none =>
    simp only [readIndices]
    cases hl : s.length with
    | zero => rfl
    | succ k => simp [readIndicesFuel, h]
  | some p =>
    obtain ⟨v, r⟩ := p
    have hl := readInt_length h
    simp only [readIndices]
    obtain ⟨k, hk⟩ : ∃ k, s.length = k + 1 := ⟨s.length - 1, by omega⟩
    rw [hk]
    simp only [readIndicesFuel, h]
    rw [readIndicesFuel_enough k r.length r (by omega) le_rfl]

theorem readIndices_none {s : Text} (h : readInt s = none) : readIndices s = [] := by
  rw [readIndices_eq, h]

theorem readIndices_some {s r : Text} {v : Int} (h : readInt s = some (v, r)) :
    readIndices s = wrap32 (v - 1) :: readIndices r := by
  rw [readIndices_eq, h]

theorem readSign_append (w rest : Text) (hw : w ≠ []) :
    readSign (w ++ rest) = ((readSign w).1, (readSign w).2 ++ rest) := by
  obtain ⟨a, w', rfl⟩ := List.exists_cons_of_ne_nil hw
  simp only [readSign, List.cons_append]
  split_ifs <;> simp

theorem takeWhile_digits_append (d rest : Text) (hd : ∀ c ∈ d, isDigit c = true)
    (hrest : rest = [] ∨ ∃ c t, rest = c :: t ∧ isDigit c = false) :
    List.takeWhile isDigit (d ++ rest) = d ∧ List.dropWhile isDigit (d ++ rest) = rest := by
  constructor
  · rw [List.takeWhile_append, List.takeWhile_eq_self_iff.mpr hd]
    rcases hrest with rfl | ⟨c, t, rfl, hc⟩
    · simp
    · simp [List.takeWhile_cons, hc]
  · rw [List.dropWhile_append, List.dropWhile_eq_nil_iff.mpr hd]
    rcases hrest with rfl | ⟨c, t, rfl, hc⟩
    · simp
    · simp [List.dropWhile_cons, hc]

theorem intOfField_some {t : Text} {v : Int} (h : intOfField t = some v) :
    (readSign t).2 ≠ [] ∧ (∀ c ∈ (readSign t).2, isDigit c = true) ∧
      v = signedVal (readSign t).1 (readSign t).2 := by
  simp only [intOfField] at h
  split_ifs at h with h1
  simp only [Bool.or_eq_true, Bool.not_eq_true', not_or, Bool.not_eq_false,
    List.isEmpty_iff, List.all_eq_true] at h1
  simp only [Option.some.injEq] at h
  exact ⟨h1.1, h1.2, h.symm⟩

/-- Extraction of an `int` from a stream whose next word is a decimal integer: it
succeeds with that integer when it fits in an `int`, and fails otherwise. -/
theorem readInt_of_field (s : Text) (v : Int) (h : intOfField (readWord s).1 = some v) :
    readInt s = if intMin ≤ v ∧ v ≤ intMax then some (v, (readWord s).2) else none := by
  obtain ⟨hne, hdig, hv⟩ := intOfField_some h
  have hw : (readWord s).1 ≠ [] := by
    intro h0
    rw [h0] at hne
    exact hne rfl
  have hs := skipWs_append_readWord s
  have hrest : (readWord s).2 = [] ∨ ∃ c t, (readWord s).2 = c :: t ∧ isDigit c = false := by
    rcases readWord_snd_head s with h0 | ⟨c, t, h0, hc⟩
    · exact Or.inl h0
    · exact Or.inr ⟨c, t, h0, isDigit_of_space hc⟩
  obtain ⟨ht, hd⟩ := takeWhile_digits_append _ _ hdig hrest
  have hsg := readSign_append (readWord s).1 (readWord s).2 hw
  simp only [readInt, ← hs, hsg, ht, hd, ← hv]
  have : (readSign (readWord s).1).2.isEmpty = false := by
    simpa [List.isEmpty_iff] using hne
  simp [this]


/-! ### Fields of a line -/

theorem fields_cons_space {c : Char} (cs : Text) (h : isSpace c = true) :
    fields (c :: cs) = fields cs := by
  simp [fields, h]

theorem fields_cons_word : ∀ (cs : Text) (c : Char), isSpace c = false →
    fields (c :: cs) = (c :: cs.takeWhile notSpace) :: fields (cs.dropWhile notSpace) := by
  intro cs
  induction cs with
  | nil => intro c hc; simp [fields, hc]
  | cons d ds ih =>
    intro c hc
    by_cases hd : isSpace d = true
    · simp [fields, hc, hd, notSpace, List.takeWhile_cons, List.dropWhile_cons]
    · have hd' : isSpace d = false := by simpa using hd
      have := ih d hd'
      rw [fields]
      simp only [hc, Bool.false_eq_true, if_false, hd', this]
      simp [notSpace, hd', List.takeWhile_cons, List.dropWhile_cons]

theorem fields_skipWs (s : Text) : fields (skipWs s) = fields s := by
  induction s with
  | nil => rfl
  | cons c cs ih =>
    by_cases hc : isSpace c = true
    · rw [skipWs_cons_space hc, ih, fields_cons_space cs hc]
    · have hc' : isSpace c = false := by simpa using hc
      rw [skipWs_of_head hc']

theorem readWord_fst_nil_iff (s : Text) : (readWord s).1 = [] ↔ skipWs s = [] := by
  constructor
  · intro h
    rcases skipWs_head s with h0 | ⟨c, t, h0, hc⟩
    · exact h0
    · simp [readWord, h0, List.takeWhile_cons, notSpace, hc] at h
  · intro h
    simp [readWord, h]

/-- The fields of a text are the words that successive extractions read. -/
theorem fields_eq (s : Text) :
    fields s = if (readWord s).1 = [] then [] else (readWord s).1 :: fields (readWord s).2 := by
  rcases skipWs_head s with h0 | ⟨c, t, h0, hc⟩
  · have h1 := (readWord_fst_nil_iff s).mpr h0
    rw [if_pos h1, ← fields_skipWs, h0]
    rfl
  · have h1 : (readWord s).1 ≠ [] := fun h => by
      have := (readWord_fst_nil_iff s).mp h
      rw [h0] at this
      exact List.cons_ne_nil _ _ this
    rw [if_neg h1, ← fields_skipWs, h0, fields_cons_word t c hc]
    simp [readWord, h0, List.takeWhile_cons, List.dropWhile_cons, notSpace, hc]

theorem readWord_snd_length (s : Text) : (readWord s).1 ≠ [] → (readWord s).2.length < s.length := by
  intro h
  have h1 := congrArg List.length (skipWs_append_readWord s)
  simp only [List.length_append] at h1
  have h2 := skipWs_length s
  have h3 : 0 < (readWord s).1.length := List.length_pos.mpr h
  omega

theorem readInt_of_no_field {s : Text} (h : fields s = []) : readInt s = none := by
  rw [fields_eq] at h
  split_ifs at h with h1
  have h2 := (readWord_fst_nil_iff s).mp h1
  simp [readInt, h2, readSign]

/-- When every field is a decimal integer that fits in an `int`, the loop reads the
integers of all the fields, in order. -/
theorem readIndices_of_fields : ∀ (vs : List Int) (s : Text),
    (fields s).map intOfField = vs.map some → (∀ v ∈ vs, intMin ≤ v ∧ v ≤ intMax) →
    readIndices s = vs.map (fun v => wrap32 (v - 1)) := by
  intro vs
  induction vs with
  | nil =>
    intro s hf _
    have : fields s = [] := by simpa using hf
    rw [readIndices_none (readInt_of_no_field this)]
    rfl
  | cons v vs ih =>
    intro s hf hr
    rw [fields_eq] at hf
    split_ifs at hf with h1
    · simp at hf
    · simp only [List.map_cons, List.cons.injEq] at hf
      have h2 := readInt_of_field s v hf.1
      rw [if_pos (hr v (by simp))] at h2
      rw [readIndices_some h2, ih (readWord s).2 hf.2 (fun u hu => hr u (by simp [hu]))]
      rfl

/-- When every field is a decimal integer with the property `P`, every index the
loop stores comes from an integer with `P` that fits in an `int`. -/
theorem readIndices_mem_of_fields (P : Int → Prop) : ∀ (n : Nat) (s : Text), s.length ≤ n →
    (∀ t ∈ fields s, ∃ v, intOfField t = some v ∧ P v) →
    ∀ i ∈ readIndices s, ∃ v, P v ∧ intMin ≤ v ∧ v ≤ intMax ∧ i = wrap32 (v - 1) := by
  intro n
  induction n with
  | zero =>
    intro s hn _ i hi
    have hs : s = [] := List.length_eq_zero.mp (Nat.le_zero.mp hn)
    subst hs
    simp [readIndices, readIndicesFuel] at hi
  | succ n ih =>
    intro s hn hf i hi
    rw [fields_eq] at hf
    split_ifs at hf with h1
    · have h2 := (readWord_fst_nil_iff s).mp h1
      have : readInt s = none := by simp [readInt, h2, readSign]
      rw [readIndices_none this] at hi
      simp at hi
    · obtain ⟨v, hv, hP⟩ := hf (readWord s).1 (by simp)
      have h2 := readInt_of_field s v hv
      by_cases hr : intMin ≤ v ∧ v ≤ intMax
      · rw [if_pos hr] at h2
        rw [readIndices_some h2] at hi
        rcases List.mem_cons.mp hi with rfl | hi
        · exact ⟨v, hP, hr.1, hr.2, rfl⟩
        · have hl := readWord_snd_length s h1
          exact ih (readWord s).2 (by omega) (fun t ht => hf t (by simp [ht])) i hi
      · rw [if_neg hr] at h2
        rw [readIndices_none h2] at hi
        simp at hi

theorem wrap32_of_range {i : Int} (h1 : intMin ≤ i) (h2 : i ≤ intMax) : wrap32 i = i := by
  simp only [intMin, intMax] at h1 h2
  simp only [wrap32]
  omega

theorem wrap32_range (i : Int) : intMin ≤ wrap32 i ∧ wrap32 i ≤ intMax := by
  simp only [intMin, intMax, wrap32]
  omega

/-! ### The loop of `loadObj` -/

theorem hasGeometry_eq {F : Type} (m : Mesh F) : hasGeometry m = nonEmptyMesh m := by
  simp only [hasGeometry, nonEmptyMesh]
  cases m.vertices <;> cases m.faces <;> simp

theorem processLine_v {F : Type} (fc : FloatConv F) (st : State F) (l : Text) (h : isV l = true) :
    processLine fc st l =
      ⟨st.meshes,
        ⟨st.currentMesh.name, st.currentMesh.vertices ++ [vertexOfLine fc st.vertex l],
          st.currentMesh.faces⟩,
        vertexOfLine fc st.vertex l⟩ := by
  have h1 : (readWord l).1 = ['v'] := by simpa [isV, recordType] using h
  simp [processLine, h1, vertexOfLine, remainder]

theorem processLine_f {F : Type} (fc : FloatConv F) (st : State F) (l : Text) (h : isF l = true) :
    processLine fc st l =
      ⟨st.meshes,
        ⟨st.currentMesh.name, st.currentMesh.vertices,
          st.currentMesh.faces ++ [faceOfLine l]⟩,
        st.vertex⟩ := by
  have h1 : (readWord l).1 = ['f'] := by simpa [isF, recordType] using h
  simp [processLine, h1, faceOfLine, remainder]

theorem processLine_g {F : Type} (fc : FloatConv F) (st : State F) (l : Text) (h : isG l = true) :
    processLine fc st l = ⟨pushIfGeometry st, ⟨groupName l, [], []⟩, st.vertex⟩ := by
  have h1 : (readWord l).1 = ['g'] := by simpa [isG, recordType] using h
  simp [processLine, h1, groupName, remainder]

theorem processLine_other {F : Type} (fc : FloatConv F) (st : State F) (l : Text)
    (hv : isV l = false) (hf : isF l = false) (hg : isG l = false) :
    processLine fc st l = st := by
  have h1 : (readWord l).1 ≠ ['v'] := by simpa [isV, recordType] using hv
  have h2 : (readWord l).1 ≠ ['f'] := by simpa [isF, recordType] using hf
  have h3 : (readWord l).1 ≠ ['g'] := by simpa [isG, recordType] using hg
  simp [processLine, h1, h2, h3]

theorem isV_not_isF {l : Text} (h : isV l = true) : isF l = false := by
  have h1 : recordType l = ['v'] := by simpa [isV] using h
  simp [isF, h1]

theorem isV_not_isG {l : Text} (h : isV l = true) : isG l = false := by
  have h1 : recordType l = ['v'] := by simpa [isV] using h
  simp [isG, h1]

theorem isF_not_isG {l : Text} (h : isF l = true) : isG l = false := by
  have h1 : recordType l = ['f'] := by simpa [isF] using h
  simp [isG, h1]

/-- One line that is not a `g` line adds its vertex or its face to the current mesh,
and a `v` line leaves its vertex in the storage of `vertex`. -/
theorem processLine_notG {F : Type} (fc : FloatConv F) (st : State F) (l : Text)
    (hg : isG l = false) :
    processLine fc st l
      = ⟨st.meshes, addLines fc st.vertex st.currentMesh [l], vertexAfter fc st.vertex l⟩ := by
  by_cases hv : isV l = true
  · rw [processLine_v fc st l hv]
    simp [addLines, verticesOf, facesOf, vertexAfter, List.filter_cons, hv, isV_not_isF hv]
  · have hv' : isV l = false := by simpa using hv
    by_cases hf : isF l = true
    · rw [processLine_f fc st l hf]
      simp [addLines, verticesOf, facesOf, vertexAfter, List.filter_cons, hv', hf]
    · have hf' : isF l = false := by simpa using hf
      rw [processLine_other fc st l hv' hf' hg]
      simp [addLines, verticesOf, facesOf, vertexAfter, List.filter_cons, hv', hf']

theorem addLines_cons {F : Type} (fc : FloatConv F) (slot : Vertex F) (m : Mesh F) (l : Text)
    (ls : List Text) :
    addLines fc (vertexAfter fc slot l) (addLines fc slot m [l]) ls
      = addLines fc slot m (l :: ls) := by
  by_cases hv : isV l = true
  · simp [addLines, verticesOf, facesOf, vertexAfter, List.filter_cons, hv, isV_not_isF hv]
  · have hv' : isV l = false := by simpa using hv
    simp only [addLines, verticesOf, facesOf, vertexAfter, List.filter_cons, hv']
    split_ifs <;> simp

theorem addLines_nil {F : Type} (fc : FloatConv F) (slot : Vertex F) (m : Mesh F) :
    addLines fc slot m [] = m := by
  simp [addLines, verticesOf, facesOf]

theorem verticesOf_length {F : Type} (fc : FloatConv F) : ∀ (ls : List Text) (slot : Vertex F),
    (verticesOf fc slot ls).length = (ls.filter isV).length := by
  intro ls
  induction ls with
  | nil => intro slot; rfl
  | cons l ls ih =>
    intro slot
    by_cases hv : isV l = true
    · simp [verticesOf, List.filter_cons, hv, ih]
    · have hv' : isV l = false := by simpa using hv
      simp [verticesOf, List.filter_cons, hv', ih]

theorem processLines_cons {F : Type} (fc : FloatConv F) (st : State F) (l : Text)
    (ls : List Text) :
    processLines fc st (l :: ls) = processLines fc (processLine fc st l) ls := rfl

theorem processLines_append {F : Type} (fc : FloatConv F) (st : State F) (ls ms : List Text) :
    processLines fc st (ls ++ ms) = processLines fc (processLines fc st ls) ms := by
  simp [processLines, List.foldl_append]

/-- Lines without a `g` line leave `meshes` alone and add their vertices and faces to
the current mesh. -/
theorem processLines_noG {F : Type} (fc : FloatConv F) : ∀ (ls : List Text) (st : State F),
    (∀ l ∈ ls, isG l = false) →
    (processLines fc st ls).meshes = st.meshes ∧
      (processLines fc st ls).currentMesh = addLines fc st.vertex st.currentMesh ls := by
  intro ls
  induction ls with
  | nil => intro st _; simp [processLines, addLines_nil]
  | cons l ls ih =>
    intro st h
    rw [processLines_cons, processLine_notG fc st l (h l (by simp))]
    obtain ⟨h1, h2⟩ := ih ⟨st.meshes, addLines fc st.vertex st.currentMesh [l],
      vertexAfter fc st.vertex l⟩ (fun m hm => h m (by simp [hm]))
    exact ⟨h1, by rw [h2]; exact addLines_cons fc st.vertex st.currentMesh l ls⟩

theorem pushIfGeometry_eq {F : Type} (st : State F) :
    pushIfGeometry st = st.meshes ++ [st.currentMesh].filter nonEmptyMesh := by
  simp only [pushIfGeometry, hasGeometry_eq, List.filter_cons, List.filter_nil]
  split_ifs <;> simp

/-- The loop of `loadObj` followed by the last push, from any state: the meshes
already stored, then the groups of the lines that have a vertex and a face. -/
theorem pushIfGeometry_processLines {F : Type} (fc : FloatConv F) :
    ∀ (ls : List Text) (st : State F),
    pushIfGeometry (processLines fc st ls) =
      st.meshes ++ ((addLines fc st.vertex st.currentMesh (headGroup ls))
        :: laterMeshes fc st.vertex ls).filter nonEmptyMesh := by
  intro ls
  induction ls with
  | nil =>
    intro st
    simp [processLines, headGroup, laterMeshes, addLines_nil, pushIfGeometry_eq]
  | cons l ls ih =>
    intro st
    rw [processLines_cons]
    by_cases hg : isG l = true
    · rw [processLine_g fc st l hg, ih]
      have h1 : headGroup (l :: ls) = [] := by simp [headGroup, List.takeWhile_cons, notG, hg]
      have h2 : laterMeshes fc st.vertex (l :: ls)
          = meshOfGroup fc st.vertex (groupName l) (ls.takeWhile notG)
            :: laterMeshes fc st.vertex ls := by
        simp [laterMeshes, hg]
      rw [h1, h2, addLines_nil, pushIfGeometry_eq]
      simp only [List.filter_cons, List.filter_nil, List.append_assoc]
      have h3 : addLines fc st.vertex (⟨groupName l, [], []⟩ : Mesh F) (headGroup ls)
          = meshOfGroup fc st.vertex (groupName l) (List.takeWhile notG ls) := by
        simp [addLines, meshOfGroup, headGroup]
      rw [h3]
      split_ifs <;> simp
    · have hg' : isG l = false := by simpa using hg
      rw [processLine_notG fc st l hg', ih]
      have h1 : headGroup (l :: ls) = l :: headGroup ls := by
        simp [headGroup, List.takeWhile_cons, notG, hg']
      have h2 : laterMeshes fc st.vertex (l :: ls)
          = laterMeshes fc (vertexAfter fc st.vertex l) ls := by
        simp [laterMeshes, hg']
      rw [h1, h2]
      simp only [addLines_cons]

theorem loadObj_eq_splitting {F : Type} (fc : FloatConv F) (garbage : Vertex F)
    (file : Option Text) :
    loadObj fc garbage file = loadObjBySplitting fc garbage file := by
  simp only [loadObj, loadObjBySplitting, pushIfGeometry_processLines, initState,
    List.nil_append]
  congr 2

/-- Lines between two inserted positions: an ignored line changes no state. -/
theorem processLines_insert {F : Type} (fc : FloatConv F) (st : State F)
    (pre post : List Text) (l : Text)
    (hv : isV l = false) (hf : isF l = false) (hg : isG l = false) :
    processLines fc st (pre ++ l :: post) = processLines fc st (pre ++ post) := by
  rw [processLines_append, processLines_append, processLines_cons,
    processLine_other fc _ l hv hf hg]

/-- Every mesh of the later groups is the mesh of one of the line groups. -/
theorem mem_laterMeshes {F : Type} (fc : FloatConv F) : ∀ (ls : List Text) (slot : Vertex F)
    (m : Mesh F), m ∈ laterMeshes fc slot ls →
    ∃ slot0 name, ∃ g ∈ (laterGroups ls).map (fun g => g.2), m = meshOfGroup fc slot0 name g := by
  intro ls
  induction ls with
  | nil => intro slot m hm; simp [laterMeshes] at hm
  | cons l ls ih =>
    intro slot m hm
    by_cases hg : isG l = true
    · simp only [laterMeshes, hg, if_true, List.mem_cons] at hm
      rcases hm with rfl | hm
      · exact ⟨slot, groupName l, ls.takeWhile notG, by simp [laterGroups, hg], rfl⟩
      · obtain ⟨s0, n, g, hgm, rfl⟩ := ih slot m hm
        exact ⟨s0, n, g, by
          simp only [laterGroups, hg, if_true, List.map_cons, List.mem_cons]
          exact Or.inr hgm, rfl⟩
    · have hg' : isG l = false := by simpa using hg
      simp only [laterMeshes, hg', Bool.false_eq_true, if_false] at hm
      obtain ⟨s0, n, g, hgm, rfl⟩ := ih _ m hm
      exact ⟨s0, n, g, by simpa [laterGroups, hg'] using hgm, rfl⟩

/-! ### Decimal digits -/

theorem digitChar_spec (d : Nat) (hd : d < 10) :
    isDigit (digitChar d) = true ∧ digitVal (digitChar d) = d := by
  interval_cases d <;> exact ⟨by decide, by decide⟩

theorem isSpace_of_digit {c : Char} (h : isDigit c = true) : isSpace c = false := by
  cases hs : isSpace c with
  | false => rfl
  | true => rw [isDigit_of_space hs] at h; exact absurd h (by decide)

theorem digit_ne_minus {c : Char} (h : isDigit c = true) : c ≠ '-' := by
  intro hc; subst hc; exact absurd h (by decide)

theorem digit_ne_plus {c : Char} (h : isDigit c = true) : c ≠ '+' := by
  intro hc; subst hc; exact absurd h (by decide)

theorem natOfDigits_append (l : Text) (c : Char) :
    natOfDigits (l ++ [c]) = 10 * natOfDigits l + digitVal c := by
  simp [natOfDigits, List.foldl_append]

theorem showNatFuel_spec : ∀ (fuel n : Nat), n ≤ fuel →
    natOfDigits (showNatFuel fuel n) = n ∧ (∀ c ∈ showNatFuel fuel n, isDigit c = true) ∧
      showNatFuel fuel n ≠ [] := by
  intro fuel
  induction fuel with
  | zero =>
    intro n hn
    have : n = 0 := Nat.le_zero.mp hn
    subst this
    exact ⟨by decide, by decide, by decide⟩
  | succ fuel ih =>
    intro n hn
    rw [showNatFuel]
    by_cases h : n < 10
    · rw [if_pos h]
      obtain ⟨h1, h2⟩ := digitChar_spec n h
      refine ⟨?_, ?_, by simp⟩
      · simp [natOfDigits, h2]
      · intro c hc
        rw [List.mem_singleton.mp hc]
        exact h1
    · rw [if_neg h]
      obtain ⟨i1, i2, -⟩ := ih (n / 10) (by omega)
      obtain ⟨h1, h2⟩ := digitChar_spec (n % 10) (Nat.mod_lt _ (by decide))
      refine ⟨?_, ?_, by simp⟩
      · rw [natOfDigits_append, i1, h2]
        omega
      · intro c hc
        rcases List.mem_append.mp hc with hc | hc
        · exact i2 c hc
        · rw [List.mem_singleton.mp hc]
          exact h1

theorem showNat_spec (n : Nat) :
    natOfDigits (showNat n) = n ∧ (∀ c ∈ showNat n, isDigit c = true) ∧ showNat n ≠ [] :=
  showNatFuel_spec n n le_rfl

theorem readSign_digits {d : Text} (hd : ∀ c ∈ d, isDigit c = true) : readSign d = (false, d) := by
  cases d with
  | nil => rfl
  | cons c t =>
    have hc := hd c (by simp)
    simp [readSign, digit_ne_minus hc, digit_ne_plus hc]

theorem readSign_showInt (i : Int) : readSign (showInt i) = (decide (i < 0), showNat i.natAbs) := by
  by_cases h : i < 0
  · simp [showInt, h, readSign]
  · simp only [showInt, h, if_false, decide_False]
    exact readSign_digits (showNat_spec _).2.1

/-- The decimal text of an `int` denotes that integer. -/
theorem intOfField_showInt (i : Int) : intOfField (showInt i) = some i := by
  obtain ⟨h1, h2, h3⟩ := showNat_spec i.natAbs
  have h4 : (showNat i.natAbs).isEmpty = false := by simpa [List.isEmpty_iff] using h3
  have h5 : (showNat i.natAbs).all isDigit = true := by simpa [List.all_eq_true] using h2
  simp only [intOfField, readSign_showInt, h4, h5, signedVal, h1]
  by_cases h : i < 0
  · simp only [h, decide_True, Bool.false_or, Bool.not_true, Bool.false_eq_true, if_false,
      if_true, Option.some.injEq]
    omega
  · simp only [h, decide_False, Bool.false_or, Bool.not_true, Bool.false_eq_true, if_false,
      Option.some.injEq]
    omega

theorem showInt_ne_nil (i : Int) : showInt i ≠ [] := by
  simp only [showInt]
  split_ifs
  · simp
  · exact (showNat_spec _).2.2

theorem showInt_notSpace (i : Int) : ∀ c ∈ showInt i, isSpace c = false := by
  intro c hc
  simp only [showInt] at hc
  split_ifs at hc
  · rcases List.mem_cons.mp hc with rfl | hc
    · decide
    · exact isSpace_of_digit ((showNat_spec _).2.1 c hc)
  · exact isSpace_of_digit ((showNat_spec _).2.1 c hc)

theorem readWord_showInt (i : Int) (rest : Text) :
    readWord (showInt i ++ ' ' :: rest) = (showInt i, ' ' :: rest) :=
  readWord_word _ _ (showInt_notSpace i) (Or.inr ⟨' ', rest, rfl, by decide⟩) (showInt_ne_nil i)

/-- The fields of the index part of a face line that `saveObj` writes. -/
theorem fields_indexTexts : ∀ (is : List Int),
    fields (' ' :: (is.map indexText).flatten) = is.map (fun i => showInt (wrap32 (i + 1))) := by
  intro is
  induction is with
  | nil => decide
  | cons i is ih =>
    rw [fields_cons_space _ (by decide)]
    simp only [List.map_cons, List.flatten_cons, indexText, List.append_assoc,
      List.singleton_append]
    rw [fields_eq, readWord_showInt, if_neg (showInt_ne_nil _)]
    simp only
    rw [ih]

theorem wrap32_succ {i : Int} (h1 : intMin ≤ i) (h2 : i < intMax) : wrap32 (i + 1) = i + 1 := by
  simp only [intMin, intMax] at h1 h2
  simp only [wrap32]
  omega

theorem wrap32_pred {i : Int} (h1 : intMin < i) (h2 : i ≤ intMax) : wrap32 (i - 1) = i - 1 := by
  simp only [intMin, intMax] at h1 h2
  simp only [wrap32]
  omega

/-- The loop of `loadObj` reads back the indices of a face line of `saveObj`. -/
theorem readIndices_indexTexts (is : List Int) (h : ∀ i ∈ is, intMin ≤ i ∧ i ≤ intMax) :
    readIndices (' ' :: (is.map indexText).flatten) = is := by
  have h1 := readIndices_of_fields (is.map (fun i => wrap32 (i + 1)))
    (' ' :: (is.map indexText).flatten)
    (by rw [fields_indexTexts]; simp [List.map_map, Function.comp_def, intOfField_showInt])
    (by
      intro v hv
      obtain ⟨i, -, rfl⟩ := List.mem_map.mp hv
      exact wrap32_range _)
  rw [h1, List.map_map]
  conv_rhs => rw [← List.map_id is]
  apply List.map_congr_left
  intro i hi
  obtain ⟨a, b⟩ := h i hi
  simp only [Function.comp, id, wrap32, intMin, intMax] at *
  omega

/-! ### Lines of a text -/

theorem getlinesFrom_line : ∀ (l cur rest : Text), (∀ c ∈ l, c ≠ '\n') →
    getlinesFrom cur (l ++ '\n' :: rest) = (cur ++ l) :: getlinesFrom [] rest := by
  intro l
  induction l with
  | nil => intro cur rest _; simp [getlinesFrom]
  | cons a l ih =>
    intro cur rest h
    have ha : a ≠ '\n' := h a (by simp)
    have h1 : getlinesFrom cur (a :: l ++ '\n' :: rest)
        = getlinesFrom (cur ++ [a]) (l ++ '\n' :: rest) := by
      simp only [List.cons_append, getlinesFrom, ha, if_false]
      rfl
    rw [h1, ih (cur ++ [a]) rest (fun c hc => h c (by simp [hc]))]
    simp

/-- Lines without `\n`, each followed by `\n`, are the lines `std::getline` yields. -/
theorem getlinesFrom_terminated : ∀ (ls : List Text), (∀ l ∈ ls, ∀ c ∈ l, c ≠ '\n') →
    getlinesFrom [] ((ls.map (fun l => l ++ ['\n'])).flatten) = ls := by
  intro ls
  induction ls with
  | nil => intro _; rfl
  | cons l ls ih =>
    intro h
    simp only [List.map_cons, List.flatten_cons, List.append_assoc, List.singleton_append]
    rw [getlinesFrom_line l [] _ (h l (by simp)), ih (fun m hm => h m (by simp [hm]))]
    simp

theorem ne_newline_of_notSpace {c : Char} (h : isSpace c = false) : c ≠ '\n' := by
  intro hc; subst hc; exact absurd h (by decide)

/-- The text of `saveObj` is the lines of `objLines`, each followed by `\n`. -/
theorem saveObj_eq_objLines {F : Type} (fc : FloatConv F) (mesh : Mesh F) :
    saveObj fc mesh = ((objLines fc mesh).map (fun l => l ++ ['\n'])).flatten := by
  have hv : List.map (vertexLine fc) mesh.vertices
      = List.map ((fun l => l ++ ['\n']) ∘ vertexText fc) mesh.vertices := by
    apply List.map_congr_left
    intro v _
    simp [vertexLine, vertexText, Function.comp]
  have hf : List.map faceLine mesh.faces
      = List.map ((fun l => l ++ ['\n']) ∘ faceText) mesh.faces := by
    apply List.map_congr_left
    intro f _
    simp only [faceLine, faceText, Function.comp, List.append_assoc]
    rfl
  simp only [saveObj, objLines, List.map_cons, List.map_append, List.map_map,
    List.flatten_cons, List.flatten_append, List.append_assoc, hv, hf]

/-! ### Reading back the lines of `saveObj` -/

theorem readWord_letter (c : Char) (r : Text) (hc : isSpace c = false) :
    readWord (c :: ' ' :: r) = ([c], ' ' :: r) :=
  readWord_word [c] (' ' :: r) (by simpa using hc) (Or.inr ⟨' ', r, rfl, by decide⟩) (by simp)

theorem skipWs_blank_word (w rest : Text) (hw : ∀ c ∈ w, isSpace c = false) (hne : w ≠ []) :
    skipWs (' ' :: (w ++ rest)) = w ++ rest := by
  rw [skipWs_cons_space (by decide)]
  obtain ⟨a, t, rfl⟩ := List.exists_cons_of_ne_nil hne
  exact skipWs_of_head (hw a (by simp))

theorem readFloat_readsBack {F : Type} (fc : FloatConv F) (old c : F) (rest : Text)
    (h : ReadsBack fc c) :
    readFloat fc old ⟨' ' :: (fc.write c ++ ' ' :: rest), false⟩ = (c, ⟨' ' :: rest, false⟩) := by
  obtain ⟨h1, h2, -, h4⟩ := h
  have hs := skipWs_blank_word (fc.write c) (' ' :: rest) h2 h1
  have he : (fc.write c ++ ' ' :: rest).isEmpty = false := by simp
  simp [readFloat, hs, he, h4 rest]

theorem readFloat_readsBack_last {F : Type} (fc : FloatConv F) (old c : F)
    (h : ReadsBack fc c) :
    (readFloat fc old ⟨' ' :: fc.write c, false⟩).1 = c := by
  obtain ⟨h1, h2, h3, -⟩ := h
  have hs := skipWs_blank_word (fc.write c) [] h2 h1
  simp only [List.append_nil] at hs
  have he : (fc.write c).isEmpty = false := by simpa [List.isEmpty_iff] using h1
  simp [readFloat, hs, he, h3]

/-- The vertex line of `saveObj` is read back as its vertex, whatever the storage of
`vertex` held. -/
theorem readVertex_written {F : Type} (fc : FloatConv F) (old v : Vertex F)
    (hx : ReadsBack fc v.x) (hy : ReadsBack fc v.y) (hz : ReadsBack fc v.z) :
    readVertex fc old
      (' ' :: (fc.write v.x ++ ' ' :: (fc.write v.y ++ ' ' :: fc.write v.z))) = v := by
  simp only [readVertex]
  rw [readFloat_readsBack fc _ v.x _ hx]
  simp only
  rw [readFloat_readsBack fc _ v.y _ hy]
  simp only
  rw [readFloat_readsBack_last fc _ v.z hz]

theorem groupName_header (name : Text) (h : ∀ c ∈ name, isSpace c = false) :
    isG ('g' :: ' ' :: name) = true ∧ groupName ('g' :: ' ' :: name) = name := by
  have h1 := readWord_letter 'g' name (by decide)
  refine ⟨by simp [isG, recordType, h1], ?_⟩
  simp only [groupName, remainder, h1]
  cases name with
  | nil => decide
  | cons a t =>
    have h2 := readWord_word (a :: t) [] h (Or.inl rfl) (by simp)
    simp only [List.append_nil] at h2
    have h3 : readWord (' ' :: a :: t) = readWord (a :: t) := by
      rw [← readWord_skipWs, skipWs_cons_space (by decide), readWord_skipWs]
    rw [h3, h2]

theorem vertexText_read {F : Type} (fc : FloatConv F) (v : Vertex F) :
    isV (vertexText fc v) = true ∧
      remainder (vertexText fc v)
        = ' ' :: (fc.write v.x ++ ' ' :: (fc.write v.y ++ ' ' :: fc.write v.z)) := by
  have h1 := readWord_letter 'v' (fc.write v.x ++ ' ' :: (fc.write v.y ++ ' ' :: fc.write v.z))
    (by decide)
  have h2 : vertexText fc v
      = 'v' :: ' ' :: (fc.write v.x ++ ' ' :: (fc.write v.y ++ ' ' :: fc.write v.z)) := by
    simp [vertexText]
  rw [h2]
  exact ⟨by simp [isV, recordType, h1], by simp [remainder, h1]⟩

theorem faceText_read (f : Face) :
    isF (faceText f) = true ∧
      remainder (faceText f) = ' ' :: (f.indices.map indexText).flatten := by
  have h1 := readWord_letter 'f' (f.indices.map indexText).flatten (by decide)
  have h2 : faceText f = 'f' :: ' ' :: (f.indices.map indexText).flatten := by
    simp only [faceText, List.cons_append, List.nil_append]
    rfl
  rw [h2]
  exact ⟨by simp [isF, recordType, h1], by simp [remainder, h1]⟩

theorem vertexOfLine_vertexText {F : Type} (fc : FloatConv F) (old v : Vertex F)
    (hx : ReadsBack fc v.x) (hy : ReadsBack fc v.y) (hz : ReadsBack fc v.z) :
    vertexOfLine fc old (vertexText fc v) = v := by
  rw [vertexOfLine, (vertexText_read fc v).2, readVertex_written fc old v hx hy hz]

theorem faceOfLine_faceText (f : Face) (h : ∀ i ∈ f.indices, intMin ≤ i ∧ i ≤ intMax) :
    faceOfLine (faceText f) = f := by
  rw [faceOfLine, (faceText_read f).2, readIndices_indexTexts f.indices h]

theorem verticesOf_faceTexts {F : Type} (fc : FloatConv F) : ∀ (fs : List Face)
    (slot : Vertex F), verticesOf fc slot (fs.map faceText) = [] := by
  intro fs
  induction fs with
  | nil => intro slot; rfl
  | cons f fs ih =>
    intro slot
    have h : isV (faceText f) = false := by
      cases hv : isV (faceText f) with
      | false => rfl
      | true =>
        have := isV_not_isF hv
        rw [(faceText_read f).1] at this
        exact absurd this (by decide)
    simp [verticesOf, h, ih]

/-- The vertices that the lines of `saveObj` give back. -/
theorem verticesOf_written {F : Type} (fc : FloatConv F) (fs : List Face) :
    ∀ (vs : List (Vertex F)) (slot : Vertex F),
    (∀ v ∈ vs, ReadsBack fc v.x ∧ ReadsBack fc v.y ∧ ReadsBack fc v.z) →
    verticesOf fc slot (vs.map (vertexText fc) ++ fs.map faceText) = vs := by
  intro vs
  induction vs with
  | nil => intro slot _; simpa using verticesOf_faceTexts fc fs slot
  | cons v vs ih =>
    intro slot h
    obtain ⟨hx, hy, hz⟩ := h v (by simp)
    have h0 := ih v (fun u hu => h u (by simp [hu]))
    have h1 : verticesOf fc slot (vertexText fc v :: (vs.map (vertexText fc) ++ fs.map faceText))
        = v :: verticesOf fc v (vs.map (vertexText fc) ++ fs.map faceText) := by
      simp only [verticesOf, (vertexText_read fc v).1, if_true,
        vertexOfLine_vertexText fc slot v hx hy hz]
    rw [List.map_cons, List.cons_append, h1, h0]

/-- The faces that the lines of `saveObj` give back. -/
theorem facesOf_written {F : Type} (fc : FloatConv F) (vs : List (Vertex F)) (fs : List Face)
    (hidx : ∀ f ∈ fs, ∀ i ∈ f.indices, intMin ≤ i ∧ i ≤ intMax) :
    facesOf (vs.map (vertexText fc) ++ fs.map faceText) = fs := by
  have hF1 : (vs.map (vertexText fc)).filter isF = [] :=
    List.filter_eq_nil_iff.mpr (fun l hl => by
      obtain ⟨v, -, rfl⟩ := List.mem_map.mp hl
      rw [isV_not_isF (vertexText_read fc v).1]
      decide)
  have hF2 : (fs.map faceText).filter isF = fs.map faceText :=
    List.filter_eq_self.mpr (fun l hl => by
      obtain ⟨f, -, rfl⟩ := List.mem_map.mp hl
      exact (faceText_read f).1)
  simp only [facesOf, List.filter_append, hF1, hF2, List.nil_append, List.map_map]
  conv_rhs => rw [← List.map_id fs]
  apply List.map_congr_left
  intro f hf
  simp [faceOfLine_faceText f (hidx f hf)]

theorem showInt_no_newline (i : Int) : ∀ c ∈ showInt i, c ≠ '\n' :=
  fun c hc => ne_newline_of_notSpace (showInt_notSpace i c hc)

theorem faceText_no_newline (f : Face) : ∀ c ∈ faceText f, c ≠ '\n' := by
  intro c hc
  simp only [faceText, List.mem_append, List.mem_cons, List.mem_singleton, List.mem_flatten,
    List.mem_map, List.not_mem_nil, or_false] at hc
  rcases hc with (rfl | rfl) | ⟨l, ⟨i, -, hl⟩, hc⟩
  · decide
  · decide
  · rw [← hl] at hc
    rcases List.mem_append.mp hc with hc | hc
    · exact showInt_no_newline _ c hc
    · rw [List.mem_singleton.mp hc]
      decide

theorem vertexText_no_newline {F : Type} (fc : FloatConv F) (v : Vertex F)
    (hx : ∀ c ∈ fc.write v.x, c ≠ '\n') (hy : ∀ c ∈ fc.write v.y, c ≠ '\n')
    (hz : ∀ c ∈ fc.write v.z, c ≠ '\n') : ∀ c ∈ vertexText fc v, c ≠ '\n' := by
  intro c hc
  simp only [vertexText, List.mem_append, List.mem_cons, List.mem_singleton,
    List.not_mem_nil, or_false] at hc
  rcases hc with (((((rfl | rfl) | hc) | rfl) | hc) | rfl) | hc
  · decide
  · decide
  · exact hx c hc
  · decide
  · exact hy c hc
  · decide
  · exact hz c hc

/-- The lines `std::getline` yields for the text of `saveObj`, when the name and the
texts of the coordinates hold no end of line. -/
theorem getlines_saveObj {F : Type} (fc : FloatConv F) (mesh : Mesh F)
    (hname : ∀ c ∈ mesh.name, c ≠ '\n')
    (hcoord : ∀ v ∈ mesh.vertices, (∀ c ∈ fc.write v.x, c ≠ '\n') ∧
      (∀ c ∈ fc.write v.y, c ≠ '\n') ∧ (∀ c ∈ fc.write v.z, c ≠ '\n')) :
    getlines (some (saveObj fc mesh)) = objLines fc mesh := by
  rw [saveObj_eq_objLines]
  apply getlinesFrom_terminated
  intro l hl
  simp only [objLines, List.mem_cons, List.mem_append, List.mem_map] at hl
  rcases hl with rfl | ⟨v, hv, rfl⟩ | ⟨f, -, rfl⟩
  · intro c hc
    simp only [List.cons_append, List.nil_append, List.mem_cons] at hc
    rcases hc with rfl | rfl | hc
    · decide
    · decide
    · exact hname c hc
  · obtain ⟨hx, hy, hz⟩ := hcoord v hv
    exact vertexText_no_newline fc v hx hy hz
  · exact faceText_no_newline f

/-- Reading back the text of `saveObj`. -/
theorem loadObj_saveObj {F : Type} (fc : FloatConv F) (garbage : Vertex F) (mesh : Mesh F)
    (hv : mesh.vertices ≠ []) (hf : mesh.faces ≠ [])
    (hname : ∀ c ∈ mesh.name, isSpace c = false)
    (hcoord : ∀ v ∈ mesh.vertices, ReadsBack fc v.x ∧ ReadsBack fc v.y ∧ ReadsBack fc v.z)
    (hidx : ∀ f ∈ mesh.faces, ∀ i ∈ f.indices, intMin ≤ i ∧ i ≤ intMax) :
    loadObj fc garbage (some (saveObj fc mesh)) = [mesh] := by
  have hl := getlines_saveObj fc mesh (fun c hc => ne_newline_of_notSpace (hname c hc))
    (fun v hv => by
      obtain ⟨hx, hy, hz⟩ := hcoord v hv
      exact ⟨fun c hc => ne_newline_of_notSpace (hx.2.1 c hc),
        fun c hc => ne_newline_of_notSpace (hy.2.1 c hc),
        fun c hc => ne_newline_of_notSpace (hz.2.1 c hc)⟩)
  obtain ⟨hg, hn⟩ := groupName_header mesh.name hname
  have hnoG : ∀ l ∈ mesh.vertices.map (vertexText fc) ++ mesh.faces.map faceText,
      isG l = false := by
    intro l hl
    rcases List.mem_append.mp hl with hl | hl
    · obtain ⟨v, -, rfl⟩ := List.mem_map.mp hl
      exact isV_not_isG (vertexText_read fc v).1
    · obtain ⟨f, -, rfl⟩ := List.mem_map.mp hl
      exact isF_not_isG (faceText_read f).1
  have h1 := verticesOf_written fc mesh.faces mesh.vertices garbage hcoord
  have h2 := facesOf_written fc mesh.vertices mesh.faces hidx
  have hhead : (['g', ' '] ++ mesh.name : Text) = 'g' :: ' ' :: mesh.name := rfl
  rw [loadObj, hl, objLines, processLines_cons, hhead, processLine_g fc _ _ hg, hn]
  obtain ⟨p1, p2⟩ := processLines_noG fc _
    (⟨pushIfGeometry (initState garbage), ⟨mesh.name, [], []⟩, (initState garbage).vertex⟩ :
      State F) hnoG
  have h3 : hasGeometry mesh = true := by
    cases hvs : mesh.vertices with
    | nil => exact absurd hvs hv
    | cons a b =>
      cases hfs : mesh.faces with
      | nil => exact absurd hfs hf
      | cons c d => simp [hasGeometry, hvs, hfs]
  have h4 : pushIfGeometry (initState garbage) = [] := rfl
  have h5 : addLines fc (initState garbage).vertex (⟨mesh.name, [], []⟩ : Mesh F)
      (mesh.vertices.map (vertexText fc) ++ mesh.faces.map faceText) = mesh := by
    simp only [addLines, initState, h1, h2, List.nil_append]
  rw [pushIfGeometry, p2, p1, h5, if_pos h3, h4]
  rfl

/-! ### The instance `wholeConv` -/

theorem wholeConv_read_showInt (c : Int) (rest : Text)
    (hrest : rest = [] ∨ ∃ a t, rest = a :: t ∧ isDigit a = false) :
    wholeConv.read (showInt c ++ rest) = (c, true, rest) := by
  obtain ⟨h1, h2, h3⟩ := showNat_spec c.natAbs
  obtain ⟨ht, hd⟩ := takeWhile_digits_append _ _ h2 hrest
  have h4 : (showNat c.natAbs).isEmpty = false := by simpa [List.isEmpty_iff] using h3
  have hsg := readSign_append (showInt c) rest (showInt_ne_nil c)
  simp only [wholeConv, hsg, readSign_showInt, ht, hd, h4, Bool.false_eq_true, if_false,
    signedVal, h1, Prod.mk.injEq, and_true]
  by_cases h : c < 0
  · simp only [h, decide_True, if_true]
    omega
  · simp only [h, decide_False, Bool.false_eq_true, if_false]
    omega

/-- Every whole number is read back by `wholeConv` from what it writes. -/
theorem wholeConv_readsBack (c : Int) : ReadsBack wholeConv c := by
  refine ⟨showInt_ne_nil c, showInt_notSpace c, ?_, ?_⟩
  · have := wholeConv_read_showInt c [] (Or.inl rfl)
    simpa using this
  · intro rest
    exact wholeConv_read_showInt c (' ' :: rest) (Or.inr ⟨' ', rest, rfl, by decide⟩)

/-! ### Meshes of the result -/

theorem mem_loadObj {F : Type} (fc : FloatConv F) (garbage : Vertex F) (file : Option Text)
    (m : Mesh F) (hm : m ∈ loadObj fc garbage file) :
    nonEmptyMesh m = true ∧
      ∃ slot name, ∃ g ∈ groupsOf (getlines file), m = meshOfGroup fc slot name g := by
  rw [loadObj_eq_splitting, loadObjBySplitting, List.mem_filter] at hm
  refine ⟨hm.2, ?_⟩
  rcases List.mem_cons.mp hm.1 with h | h
  · exact ⟨garbage, _, headGroup (getlines file), by simp [groupsOf], h⟩
  · obtain ⟨slot, name, g, hg, rfl⟩ := mem_laterMeshes fc _ _ m h
    exact ⟨slot, name, g, by
      simp only [groupsOf, List.mem_cons]
      exact Or.inr hg, rfl⟩

theorem vertexAt_isSome {F : Type} (vs : List (Vertex F)) (i : Int) (h0 : 0 ≤ i)
    (h1 : i < (vs.length : Int)) : (vertexAt vs i).isSome = true := by
  have h2 : i.toNat < vs.length := by omega
  simp [vertexAt, h0, List.getElem?_eq_getElem h2]

/-- From every stream the loop reads some integers and stops where an extraction
fails; the face holds each of them minus one. -/
theorem readsInts_total : ∀ (n : Nat) (s : Text), s.length ≤ n →
    ∃ vs tail, ReadsInts s vs tail ∧ readInt tail = none ∧
      readIndices s = vs.map (fun v => wrap32 (v - 1)) := by
  intro n
  induction n with
  | zero =>
    intro s hn
    have hs : s = [] := List.length_eq_zero.mp (Nat.le_zero.mp hn)
    subst hs
    exact ⟨[], [], ReadsInts.done [], readInt_nil, by simp [readIndices_none readInt_nil]⟩
  | succ n ih =>
    intro s hn
    cases h : readInt s with
    | none => exact ⟨[], s, ReadsInts.done s, h, by simp [readIndices_none h]⟩
    | some p =>
      obtain ⟨v, r⟩ := p
      have hl := readInt_length h
      obtain ⟨vs, tail, h1, h2, h3⟩ := ih r (by omega)
      exact ⟨v :: vs, tail, ReadsInts.step h h1, h2, by simp [readIndices_some h, h3]⟩

theorem readsInts_range {s tail : Text} {vs : List Int} (h : ReadsInts s vs tail) :
    ∀ v ∈ vs, intMin ≤ v ∧ v ≤ intMax := by
  induction h with
  | done s => intro v hv; exact absurd hv (List.not_mem_nil _)
  | step h1 _ ih =>
    intro v hv
    rcases List.mem_cons.mp hv with rfl | hv
    · exact readInt_range h1
    · exact ih v hv


theorem wrap32_pred_cases {v : Int} (h1 : intMin ≤ v) (h2 : v ≤ intMax) :
    wrap32 (v - 1) = if v = intMin then intMax else v - 1 := by
  simp only [intMin, intMax] at *
  simp only [wrap32]
  split_ifs <;> omega

/-! ## The claims -/

/-- C1, as amended. Round trip: for every mesh with at least one vertex and at least
one face, whose name holds no white space, whose coordinates are each read back by the
stream from the text the stream writes for them, and whose indices are values of
`int`, parsing with `loadObj` the text that `saveObj` writes yields exactly one mesh,
equal to the mesh written: same name, same vertices, same faces. -/
theorem C1_round_trip {F : Type} (fc : FloatConv F) (garbage : Vertex F) (mesh : Mesh F)
    (hv : mesh.vertices ≠ []) (hf : mesh.faces ≠ [])
    (hname : ∀ c ∈ mesh.name, isSpace c = false)
    (hcoord : ∀ v ∈ mesh.vertices, ReadsBack fc v.x ∧ ReadsBack fc v.y ∧ ReadsBack fc v.z)
    (hidx : ∀ f ∈ mesh.faces, ∀ i ∈ f.indices, intMin ≤ i ∧ i ≤ intMax) :
    loadObj fc garbage (some (saveObj fc mesh)) = [mesh] :=
  loadObj_saveObj fc garbage mesh hv hf hname hcoord hidx

/-- Witness of C1: a triangle named `tri` is written and read back. -/
theorem C1_round_trip_witness :
    loadObj wholeConv ⟨7, 8, 9⟩ (some (saveObj wholeConv
        ⟨"tri".toList, [⟨0, 0, 0⟩, ⟨1, 0, 0⟩, ⟨0, -1, 0⟩], [⟨[2, 0, 1]⟩, ⟨[]⟩]⟩))
      = [⟨"tri".toList, [⟨0, 0, 0⟩, ⟨1, 0, 0⟩, ⟨0, -1, 0⟩], [⟨[2, 0, 1]⟩, ⟨[]⟩]⟩] :=
  C1_round_trip wholeConv ⟨7, 8, 9⟩
    ⟨"tri".toList, [⟨0, 0, 0⟩, ⟨1, 0, 0⟩, ⟨0, -1, 0⟩], [⟨[2, 0, 1]⟩, ⟨[]⟩]⟩
    (by simp) (by simp) (by decide)
    (fun v _ => ⟨wholeConv_readsBack v.x, wholeConv_readsBack v.y, wholeConv_readsBack v.z⟩)
    (by decide)

/-- Counterexample to C1 as stated: a mesh with one vertex and one face whose name is
`a b` is written with the header `g a b` and read back with the name `a`. -/
theorem C1_counterexample_name_with_blank :
    (⟨"a b".toList, [⟨0, 0, 0⟩], [⟨[0]⟩]⟩ : Mesh Int).vertices.length = 1 ∧
    (⟨"a b".toList, [⟨0, 0, 0⟩], [⟨[0]⟩]⟩ : Mesh Int).faces.length = 1 ∧
    saveObj wholeConv ⟨"a b".toList, [⟨0, 0, 0⟩], [⟨[0]⟩]⟩ = "g a b\nv 0 0 0\nf 1 \n".toList ∧
    loadObj wholeConv ⟨0, 0, 0⟩ (some (saveObj wholeConv ⟨"a b".toList, [⟨0, 0, 0⟩], [⟨[0]⟩]⟩))
      = [⟨"a".toList, [⟨0, 0, 0⟩], [⟨[0]⟩]⟩] ∧
    loadObj wholeConv ⟨0, 0, 0⟩ (some (saveObj wholeConv ⟨"a b".toList, [⟨0, 0, 0⟩], [⟨[0]⟩]⟩))
      ≠ [⟨"a b".toList, [⟨0, 0, 0⟩], [⟨[0]⟩]⟩] := by
  decide

/-- C3. Empty-group drop: every mesh that `loadObj` returns has at least one vertex
and at least one face. On the input `g Empty`, `g Real`, three `v` lines, `f 1 2 3` the
result has exactly one mesh, named `Real`. -/
theorem C3_empty_group_drop {F : Type} (fc : FloatConv F) (garbage : Vertex F)
    (file : Option Text) (m : Mesh F) (hm : m ∈ loadObj fc garbage file) :
    (1 ≤ m.vertices.length ∧ 1 ≤ m.faces.length) ∧
    (loadObj fc garbage
        (some "g Empty\ng Real\nv 0 0 0\nv 1 0 0\nv 0 1 0\nf 1 2 3".toList)).map
        (fun m => m.name) = ["Real".toList] ∧
    (loadObj fc garbage (some "g Last".toList)).length = 0 := by
  refine ⟨?_, rfl, rfl⟩
  have h := (mem_loadObj fc garbage file m hm).1
  simpa [nonEmptyMesh] using h

/-- Witness of C3: the mesh `Real` of the example input. -/
theorem C3_empty_group_drop_witness :
    (⟨"Real".toList, [⟨0, 0, 0⟩, ⟨1, 0, 0⟩, ⟨0, 1, 0⟩], [⟨[0, 1, 2]⟩]⟩ : Mesh Int)
      ∈ loadObj wholeConv ⟨7, 8, 9⟩
          (some "g Empty\ng Real\nv 0 0 0\nv 1 0 0\nv 0 1 0\nf 1 2 3".toList) ∧
    1 ≤ (⟨"Real".toList, [⟨0, 0, 0⟩, ⟨1, 0, 0⟩, ⟨0, 1, 0⟩],
          [⟨[0, 1, 2]⟩]⟩ : Mesh Int).vertices.length :=
  ⟨by decide,
   (C3_empty_group_drop wholeConv ⟨7, 8, 9⟩
      (some "g Empty\ng Real\nv 0 0 0\nv 1 0 0\nv 0 1 0\nf 1 2 3".toList)
      ⟨"Real".toList, [⟨0, 0, 0⟩, ⟨1, 0, 0⟩, ⟨0, 1, 0⟩], [⟨[0, 1, 2]⟩]⟩ (by decide)).1.1⟩

/-- C5, as amended. Index rebasing on parse: for every `f` line whose fields are
whitespace-separated decimal integers `i1 … ik` (`k ≥ 0`), each greater than the
smallest `int` and not greater than the largest, `loadObj` appends to the current mesh
exactly one face, whose indices are `[i1 - 1, …, ik - 1]` in the order of the fields,
whatever the state (so independent of earlier groups); `f 3 1 2` gives `[2, 0, 1]`
and an `f` line without fields gives an empty face. -/
theorem C5_index_rebasing {F : Type} (fc : FloatConv F) (st : State F) (line : Text)
    (is : List Int) (hf : isF line = true)
    (hfields : (fields (remainder line)).map intOfField = is.map some)
    (hrange : ∀ i ∈ is, intMin < i ∧ i ≤ intMax) :
    processLine fc st line
      = ⟨st.meshes,
          ⟨st.currentMesh.name, st.currentMesh.vertices,
            st.currentMesh.faces ++ [⟨is.map (fun i => i - 1)⟩]⟩,
          st.vertex⟩ ∧
    faceOfLine "f 3 1 2".toList = ⟨[2, 0, 1]⟩ ∧ faceOfLine "f".toList = ⟨[]⟩ := by
  refine ⟨?_, by decide, by decide⟩
  rw [processLine_f fc st line hf, faceOfLine,
    readIndices_of_fields is (remainder line) hfields
      (fun i hi => ⟨le_of_lt (hrange i hi).1, (hrange i hi).2⟩)]
  have : is.map (fun v => wrap32 (v - 1)) = is.map (fun i => i - 1) := by
    apply List.map_congr_left
    intro i hi
    exact wrap32_pred (hrange i hi).1 (hrange i hi).2
  rw [this]

/-- Witness of C5: the line `f 3 1 +2 3`, with blanks and a tab around its fields, in
a state that already holds a face. -/
theorem C5_index_rebasing_witness :
    processLine wholeConv ⟨[], ⟨"m".toList, [], [⟨[7]⟩]⟩, ⟨7, 8, 9⟩⟩ "  f 3  1\t+2 3 ".toList
      = ⟨[], ⟨"m".toList, [], [⟨[7]⟩, ⟨[2, 0, 1, 2]⟩]⟩, ⟨7, 8, 9⟩⟩ :=
  (C5_index_rebasing wholeConv ⟨[], ⟨"m".toList, [], [⟨[7]⟩]⟩, ⟨7, 8, 9⟩⟩
    "  f 3  1\t+2 3 ".toList [3, 1, 2, 3] (by decide) (by decide) (by decide)).1.trans
    (by decide)

/-- Counterexample to C5 as stated: the only field of the line `f 2147483648` is the
integer `2147483648`, and the face that `loadObj` stores is empty, not `[2147483647]`;
the only field of the line `f -2147483648` is the integer `-2147483648`, and the face
stored is `[2147483647]`, not `[-2147483649]`. -/
theorem C5_counterexample_out_of_int_range :
    isF "f 2147483648".toList = true ∧
    (fields (remainder "f 2147483648".toList)).map intOfField = [some 2147483648] ∧
    loadObj wholeConv ⟨0, 0, 0⟩ (some "v 0 0 0\nf 2147483648".toList)
      = [⟨"Default".toList, [⟨0, 0, 0⟩], [⟨[]⟩]⟩] ∧
    loadObj wholeConv ⟨0, 0, 0⟩ (some "v 0 0 0\nf 2147483648".toList)
      ≠ [⟨"Default".toList, [⟨0, 0, 0⟩], [⟨[2147483648 - 1]⟩]⟩] ∧
    isF "f -2147483648".toList = true ∧
    (fields (remainder "f -2147483648".toList)).map intOfField = [some (-2147483648)] ∧
    loadObj wholeConv ⟨0, 0, 0⟩ (some "v 0 0 0\nf -2147483648".toList)
      = [⟨"Default".toList, [⟨0, 0, 0⟩], [⟨[2147483647]⟩]⟩] ∧
    loadObj wholeConv ⟨0, 0, 0⟩ (some "v 0 0 0\nf -2147483648".toList)
      ≠ [⟨"Default".toList, [⟨0, 0, 0⟩], [⟨[-2147483648 - 1]⟩]⟩] := by
  decide

/-- C6, as amended. Serializer output: for every mesh whose name holds no end of
line, whose coordinates are written without an end of line, and whose indices are
values of `int` less than the largest, the lines of the text that `saveObj` writes
are exactly the header `g <name>`, then one line `v x y z` per vertex in stored
order, then one line per face in stored order; every line is followed by an end of
line and nothing else is written; the tokens of a face line are `f` and the stored
indices plus one in stored order, each index followed by a blank; serializing the
face `[2, 0, 1]` produces the line `f 3 1 2 `, whose tokens are `f 3 1 2`. -/
theorem C6_serializer_output {F : Type} (fc : FloatConv F) (mesh : Mesh F)
    (hname : ∀ c ∈ mesh.name, c ≠ '\n')
    (hcoord : ∀ v ∈ mesh.vertices, (∀ c ∈ fc.write v.x, c ≠ '\n') ∧
      (∀ c ∈ fc.write v.y, c ≠ '\n') ∧ (∀ c ∈ fc.write v.z, c ≠ '\n'))
    (hidx : ∀ f ∈ mesh.faces, ∀ i ∈ f.indices, intMin ≤ i ∧ i < intMax) :
    getlines (some (saveObj fc mesh))
      = (['g', ' '] ++ mesh.name)
          :: (mesh.vertices.map (fun v =>
                ['v', ' '] ++ fc.write v.x ++ [' '] ++ fc.write v.y ++ [' '] ++ fc.write v.z)
              ++ mesh.faces.map faceText) ∧
    saveObj fc mesh
      = ((getlines (some (saveObj fc mesh))).map (fun l => l ++ ['\n'])).flatten ∧
    (∀ f ∈ mesh.faces,
      faceText f = ['f', ' '] ++ (f.indices.map (fun i => showInt (i + 1) ++ [' '])).flatten ∧
      fields (faceText f) = ['f'] :: f.indices.map (fun i => showInt (i + 1)) ∧
      (f.indices.map (fun i => showInt (i + 1))).map intOfField
        = f.indices.map (fun i => some (i + 1))) ∧
    faceText ⟨[2, 0, 1]⟩ = "f 3 1 2 ".toList ∧
    fields (faceText ⟨[2, 0, 1]⟩) = ["f".toList, "3".toList, "1".toList, "2".toList] := by
  have hl := getlines_saveObj fc mesh hname hcoord
  have hw : ∀ f ∈ mesh.faces, ∀ i ∈ f.indices, wrap32 (i + 1) = i + 1 :=
    fun f hf i hi => wrap32_succ (hidx f hf i hi).1 (hidx f hf i hi).2
  refine ⟨?_, ?_, ?_, by decide, by decide⟩
  · rw [hl]
    rfl
  · rw [hl]
    exact saveObj_eq_objLines fc mesh
  · intro f hf
    have hmap : f.indices.map (fun i => showInt (wrap32 (i + 1)))
        = f.indices.map (fun i => showInt (i + 1)) :=
      List.map_congr_left (fun i hi => by rw [hw f hf i hi])
    have hmap2 : f.indices.map (fun i => showInt (wrap32 (i + 1)) ++ [' '])
        = f.indices.map (fun i => showInt (i + 1) ++ [' ']) :=
      List.map_congr_left (fun i hi => by rw [hw f hf i hi])
    refine ⟨?_, ?_, ?_⟩
    · simp only [faceText, hmap2]
    · have h2 : faceText f = 'f' :: ' ' :: (f.indices.map indexText).flatten := by
        simp only [faceText, List.cons_append, List.nil_append]
        rfl
      rw [h2, fields_cons_word _ 'f' (by decide)]
      simp only [List.takeWhile_cons, notSpace, List.dropWhile_cons]
      simp only [show isSpace ' ' = true by decide, Bool.not_true, Bool.false_eq_true, if_false]
      rw [fields_indexTexts, hmap]
    · simp [List.map_map, Function.comp_def, intOfField_showInt]

/-- Witness of C6: the lines written for a mesh with one vertex and two faces. -/
theorem C6_serializer_output_witness :
    getlines (some (saveObj wholeConv ⟨"m".toList, [⟨0, 0, 0⟩], [⟨[2, 0, 1]⟩, ⟨[]⟩]⟩))
      = ["g m".toList, "v 0 0 0".toList, "f 3 1 2 ".toList, "f ".toList] :=
  (C6_serializer_output wholeConv ⟨"m".toList, [⟨0, 0, 0⟩], [⟨[2, 0, 1]⟩, ⟨[]⟩]⟩
    (by decide) (by decide) (by decide)).1.trans (by decide)

/-- Counterexample to C6 as stated: for the stored index `2147483647` the token
written is `-2147483648`, not the stored index plus one; for the name `a`, end of
line, `b` the header takes two lines, `g a` and `b`. -/
theorem C6_counterexample_largest_index_and_name :
    getlines (some (saveObj wholeConv ⟨"m".toList, [⟨0, 0, 0⟩], [⟨[2147483647]⟩]⟩))
      = ["g m".toList, "v 0 0 0".toList, "f -2147483648 ".toList] ∧
    fields (faceText ⟨[2147483647]⟩) = ["f".toList, "-2147483648".toList] ∧
    fields (faceText ⟨[2147483647]⟩) ≠ ["f".toList, showInt (2147483647 + 1)] ∧
    getlines (some (saveObj wholeConv ⟨"a\nb".toList, [⟨0, 0, 0⟩], [⟨[0]⟩]⟩))
      = ["g a".toList, "b".toList, "v 0 0 0".toList, "f 1 ".toList] := by
  decide

/-- C7. Ignored records: when the lines of a second file are the lines of a first
file with one more line, at any position, whose first token is not exactly `v`, `f`
or `g`, `loadObj` returns the same collection for both files; comment lines, `vt`,
`vn` and `usemtl` lines and blank lines are such lines. -/
theorem C7_ignored_records {F : Type} (fc : FloatConv F) (garbage : Vertex F)
    (file1 file2 : Text) (pre post : List Text) (l : Text)
    (h1 : getlines (some file1) = pre ++ post)
    (h2 : getlines (some file2) = pre ++ l :: post)
    (hl : recordType l ≠ ['v'] ∧ recordType l ≠ ['f'] ∧ recordType l ≠ ['g']) :
    loadObj fc garbage (some file2) = loadObj fc garbage (some file1) ∧
    ∀ x ∈ ["# v 1 2 3".toList, "vt 0 1".toList, "vn 0 0 1".toList, "usemtl m".toList,
        "".toList, "  \t".toList, "vf".toList, "G".toList],
      recordType x ≠ ['v'] ∧ recordType x ≠ ['f'] ∧ recordType x ≠ ['g'] := by
  have hv : isV l = false := by simpa [isV] using hl.1
  have hf : isF l = false := by simpa [isF] using hl.2.1
  have hg : isG l = false := by simpa [isG] using hl.2.2
  refine ⟨?_, by decide⟩
  rw [loadObj, loadObj, h1, h2, processLines_insert fc _ pre post l hv hf hg]

/-- Witness of C7: a `vt` line between a `v` line and an `f` line. -/
theorem C7_ignored_records_witness :
    loadObj wholeConv ⟨7, 8, 9⟩ (some "g A\nv 0 0 0\nvt 1 1\nv 1\nf 1".toList)
      = loadObj wholeConv ⟨7, 8, 9⟩ (some "g A\nv 0 0 0\nv 1\nf 1\n".toList) :=
  (C7_ignored_records wholeConv ⟨7, 8, 9⟩ "g A\nv 0 0 0\nv 1\nf 1\n".toList
    "g A\nv 0 0 0\nvt 1 1\nv 1\nf 1".toList
    ["g A".toList, "v 0 0 0".toList] ["v 1".toList, "f 1".toList] "vt 1 1".toList
    (by decide) (by decide) (by decide)).1

/-- C8, as amended. Open failure: when the input path cannot be opened, `loadObj`
returns the empty collection, which is also what it returns for a file that can be
opened and holds no mesh; no failure reaches the caller. -/
theorem C8_open_failure {F : Type} (fc : FloatConv F) (garbage : Vertex F) :
    loadObj fc garbage none = [] ∧ loadObj fc garbage none = loadObj fc garbage (some []) ∧
    loadObj fc garbage none
      = loadObj fc garbage (some "# no mesh\ng G\nv 0 0 0\n".toList) :=
  ⟨rfl, rfl, rfl⟩

/-- Counterexample to C8 as stated: the result for a path that cannot be opened is
the result for an empty file and for a file with a comment only. -/
theorem C8_counterexample_same_result :
    loadObj wholeConv ⟨0, 0, 0⟩ none = loadObj wholeConv ⟨0, 0, 0⟩ (some []) ∧
    loadObj wholeConv ⟨0, 0, 0⟩ none
      = loadObj wholeConv ⟨0, 0, 0⟩ (some "# nothing here\n".toList) := by
  decide

/-- C9. Valid indices on well-formed input: for every input text in which every field
of every `f` line is a decimal integer between 1 and the number of `v` lines of the
group of that line, every index of every face of every mesh that `loadObj` returns is
at least 0 and less than the number of vertices of that mesh, and every lookup
`mesh.vertices[index]` of `displayMesh` is in range. -/
theorem C9_valid_indices {F : Type} (fc : FloatConv F) (garbage : Vertex F) (text : Text)
    (hwf : ∀ g ∈ groupsOf (getlines (some text)), ∀ l ∈ g, isF l = true →
      ∀ t ∈ fields (remainder l),
        ∃ v, intOfField t = some v ∧ 1 ≤ v ∧ v ≤ ((g.filter isV).length : Int))
    (m : Mesh F) (hm : m ∈ loadObj fc garbage (some text)) :
    (∀ f ∈ m.faces, ∀ i ∈ f.indices, 0 ≤ i ∧ i < (m.vertices.length : Int)) ∧
    (∀ o ∈ displayMesh m, o.isSome = true) := by
  have key : ∀ f ∈ m.faces, ∀ i ∈ f.indices, 0 ≤ i ∧ i < (m.vertices.length : Int) := by
    obtain ⟨-, slot, name, g, hg, rfl⟩ := mem_loadObj fc garbage (some text) m hm
    intro f hf i hi
    simp only [meshOfGroup, facesOf, List.mem_map, List.mem_filter] at hf
    obtain ⟨l, ⟨hl, hlf⟩, rfl⟩ := hf
    obtain ⟨v, ⟨hv1, hv2⟩, hv3, hv4, rfl⟩ :=
      readIndices_mem_of_fields (fun v => 1 ≤ v ∧ v ≤ ((g.filter isV).length : Int))
        (remainder l).length (remainder l) le_rfl (hwf g hg l hl hlf) i hi
    have hlen : (meshOfGroup fc slot name g).vertices.length = (g.filter isV).length := by
      simp [meshOfGroup, verticesOf_length]
    rw [hlen, wrap32_pred (by simp only [intMin]; omega) hv4]
    omega
  refine ⟨key, ?_⟩
  intro o ho
  simp only [displayMesh, List.mem_flatten, List.mem_map] at ho
  obtain ⟨l, ⟨f, hf, rfl⟩, ho⟩ := ho
  obtain ⟨i, hi, rfl⟩ := List.mem_map.mp ho
  exact vertexAt_isSome _ i (key f hf i hi).1 (key f hf i hi).2

/-- Witness of C9: two groups, each `f` line within the `v` lines of its own group. -/
theorem C9_valid_indices_witness :
    (∀ f ∈ (⟨"B".toList, [⟨2, 2, 2⟩], [⟨[0]⟩]⟩ : Mesh Int).faces, ∀ i ∈ f.indices,
      0 ≤ i ∧ i < ((⟨"B".toList, [⟨2, 2, 2⟩], [⟨[0]⟩]⟩ : Mesh Int).vertices.length : Int)) ∧
    (∀ o ∈ displayMesh (⟨"B".toList, [⟨2, 2, 2⟩], [⟨[0]⟩]⟩ : Mesh Int), o.isSome = true) :=
  C9_valid_indices wholeConv ⟨7, 8, 9⟩
    "g A\nv 0 0 0\nv 1 0 0\nv 0 1 0\nf 1 2 3\ng B\nf 1\nv 2 2 2".toList
    (by decide) ⟨"B".toList, [⟨2, 2, 2⟩], [⟨[0]⟩]⟩ (by decide)

/-- C10, as amended. Partial read of a malformed face line: for every `f` line,
`loadObj` appends exactly one face to the current mesh and goes on with the following
lines; for the integers read from the start of the remainder up to the first position
where an integer cannot be read, the face holds `value - 1`, and `2147483647` for the
value `-2147483648`, the smallest `int`; what follows that position is dropped. The
line `f 1 2 x 3` gives the face `[0, 1]` and the line `f 1/2/3 4/5/6` gives `[0]`. -/
theorem C10_malformed_face_line {F : Type} (fc : FloatConv F) (st : State F) (line : Text)
    (following : List Text) (hf : isF line = true) :
    (∃ vs tail, ReadsInts (remainder line) vs tail ∧ readInt tail = none ∧
      processLine fc st line
        = ⟨st.meshes,
            ⟨st.currentMesh.name, st.currentMesh.vertices,
              st.currentMesh.faces
                ++ [⟨vs.map (fun v => if v = -2147483648 then 2147483647 else v - 1)⟩]⟩,
            st.vertex⟩) ∧
    processLines fc st (line :: following)
      = processLines fc (processLine fc st line) following ∧
    faceOfLine "f 1 2 x 3".toList = ⟨[0, 1]⟩ ∧
    faceOfLine "f 1/2/3 4/5/6".toList = ⟨[0]⟩ := by
  refine ⟨?_, rfl, by decide, by decide⟩
  obtain ⟨vs, tail, h1, h2, h3⟩ := readsInts_total (remainder line).length (remainder line) le_rfl
  refine ⟨vs, tail, h1, h2, ?_⟩
  rw [processLine_f fc st line hf, faceOfLine, h3]
  have : vs.map (fun v => wrap32 (v - 1))
      = vs.map (fun v => if v = -2147483648 then 2147483647 else v - 1) := by
    apply List.map_congr_left
    intro v hv
    have hr := readsInts_range h1 v hv
    exact wrap32_pred_cases hr.1 hr.2
  rw [this]

/-- Witness of C10: the line `f 1 2 x 3` followed by a `v` line. -/
theorem C10_malformed_face_line_witness :
    processLines wholeConv (initState ⟨7, 8, 9⟩) ["f 1 2 x 3".toList, "v 5 6 7".toList]
      = ⟨[], ⟨"Default".toList, [⟨5, 6, 7⟩], [⟨[0, 1]⟩]⟩, ⟨5, 6, 7⟩⟩ :=
  (C10_malformed_face_line wholeConv (initState ⟨7, 8, 9⟩) "f 1 2 x 3".toList
    ["v 5 6 7".toList] (by decide)).2.1.trans (by decide)

/-- Counterexample to C10 as stated: on the line `f -2147483648` the integer read is
`-2147483648` and the face holds `2147483647`, not `value - 1`. -/
theorem C10_counterexample_smallest_int :
    isF "f -2147483648".toList = true ∧
    readInt (remainder "f -2147483648".toList) = some (-2147483648, []) ∧
    faceOfLine "f -2147483648".toList = ⟨[2147483647]⟩ ∧
    faceOfLine "f -2147483648".toList ≠ ⟨[-2147483648 - 1]⟩ ∧
    loadObj wholeConv ⟨0, 0, 0⟩ (some "v 0 0 0\nf -2147483648".toList)
      = [⟨"Default".toList, [⟨0, 0, 0⟩], [⟨[2147483647]⟩]⟩] := by
  decide

end ObjViewer
